import Mathlib

/-!
Verification of the LordCapulet constrained-search core against its
natural-language specification.

The development shallowly embeds three components of the code base:

* `lordcapulet/utils/rotation_matrices.py` — angular-momentum operators,
  the fixed spherical-to-cubic basis change, and the arbitrary-axis
  rotation of a state matrix (`rotate_QE_matrix`);
* `lordcapulet/functions/propose.py` and
  `lordcapulet/functions/proposal_modes/random_mode.py` — the proposal
  generator in its `random` and `read` modes;
* `lordcapulet/workflows/global_constrained_search.py` — the generational
  search controller.

Python floats are modelled by `ℝ`, complex numpy arrays by
`Matrix (Fin n) (Fin n) ℂ`, raised exceptions by `Except PyErr`, and the
numpy random sources by explicit stream parameters.
-/

open scoped Matrix

namespace LordCapulet

/-- Python exception classes that the embedded code can raise.
`valueError` models `raise ValueError(...)` (the code base's validation
and data-insufficiency errors), `indexError` a failing list subscript,
`zeroDivisionError` a division by zero. -/
inductive PyErr where
  | valueError : PyErr
  | indexError : PyErr
  | zeroDivisionError : PyErr
deriving DecidableEq, Repr

/-! ## Basis rotation library (`rotation_matrices.py`)

The angular-momentum operators of `get_angular_momentum_operators` are
parametrised below by the matrix dimension `d = 2l + 1`; the quantum
number is recovered as `lval d = (d - 1)/2` and the magnetic quantum
number of basis index `i` is `mval d i = -l + i`, exactly as in the
Python loop (`m = -l + i`). -/

/-- Orbital quantum number `l` for matrix dimension `d = 2l + 1`. -/
noncomputable def lval (d : ℕ) : ℝ := ((d : ℝ) - 1) / 2

/-- Magnetic quantum number of basis index `i`: `m = -l + i`. -/
noncomputable def mval (d : ℕ) (i : Fin d) : ℝ := -(lval d) + (i : ℝ)

/-- Matrix element of the raising operator: `L+` maps `|l,m⟩` to
`sqrt (l(l+1) - m(m+1)) |l,m+1⟩`; this is the coefficient attached to
source index `j` (`Lp[j+1, j]` in the Python code). -/
noncomputable def cPlus (d : ℕ) (j : Fin d) : ℝ :=
  Real.sqrt (lval d * (lval d + 1) - mval d j * (mval d j + 1))

/-- Matrix element of the lowering operator attached to source index `j`
(`Lm[j-1, j]` in the Python code). -/
noncomputable def cMinus (d : ℕ) (j : Fin d) : ℝ :=
  Real.sqrt (lval d * (lval d + 1) - mval d j * (mval d j - 1))

/-- The diagonal operator `Lz` with entries `m = -l, ..., l`. -/
noncomputable def Lz (d : ℕ) : Matrix (Fin d) (Fin d) ℂ :=
  Matrix.diagonal fun i => (mval d i : ℂ)

/-- The raising operator `L+`: entry `(i, j)` is `cPlus j` when
`i = j + 1` (the Python code writes `Lp[i+1, i]` for `m < l`; for the top
index `j = d - 1` no row `j + 1` exists, matching the `m < l` guard). -/
noncomputable def Lp (d : ℕ) : Matrix (Fin d) (Fin d) ℂ :=
  Matrix.of fun i j : Fin d => if (i : ℕ) = (j : ℕ) + 1 then (cPlus d j : ℂ) else 0

/-- The lowering operator `L-`: entry `(i, j)` is `cMinus j` when
`i + 1 = j` (the Python code writes `Lm[i-1, i]` for `m > -l`). -/
noncomputable def Lm (d : ℕ) : Matrix (Fin d) (Fin d) ℂ :=
  Matrix.of fun i j : Fin d => if (i : ℕ) + 1 = (j : ℕ) then (cMinus d j : ℂ) else 0

/-- The operator `Lx = (L+ + L-) / 2`. -/
noncomputable def Lx (d : ℕ) : Matrix (Fin d) (Fin d) ℂ :=
  ((1 : ℂ) / 2) • (Lp d + Lm d)

/-- The operator `Ly = (L+ - L-) / (2i)`. -/
noncomputable def Ly (d : ℕ) : Matrix (Fin d) (Fin d) ℂ :=
  ((1 : ℂ) / (2 * Complex.I)) • (Lp d - Lm d)

theorem mval_succ {d : ℕ} (j : Fin d) (i : Fin d) (h : (i : ℕ) = (j : ℕ) + 1) :
    mval d i = mval d j + 1 := by
  simp only [mval, h]
  push_cast
  ring

theorem cMinus_eq_cPlus {d : ℕ} (j i : Fin d) (h : (i : ℕ) = (j : ℕ) + 1) :
    cMinus d i = cPlus d j := by
  unfold cMinus cPlus
  rw [mval_succ j i h]
  ring_nf

/-- The lowering operator is the conjugate transpose of the raising
operator (all matrix elements are real square roots). -/
theorem Lp_conjTranspose (d : ℕ) : (Lp d)ᴴ = Lm d := by
  ext i j
  simp only [Matrix.conjTranspose_apply, Lp, Lm, Matrix.of_apply]
  by_cases h : (i : ℕ) + 1 = (j : ℕ)
  · rw [if_pos h.symm, if_pos h, cMinus_eq_cPlus i j h.symm]
    simp
  · rw [if_neg (fun hc => h hc.symm), if_neg h]
    simp

theorem Lm_conjTranspose (d : ℕ) : (Lm d)ᴴ = Lp d := by
  rw [← Lp_conjTranspose d, Matrix.conjTranspose_conjTranspose]

theorem Lz_isHermitian (d : ℕ) : (Lz d).IsHermitian := by
  unfold Lz
  refine Matrix.isHermitian_diagonal_iff.mpr fun i => ?_
  simp [IsSelfAdjoint, Complex.conj_ofReal]

theorem Lx_isHermitian (d : ℕ) : (Lx d).IsHermitian := by
  unfold Matrix.IsHermitian Lx
  rw [Matrix.conjTranspose_smul, Matrix.conjTranspose_add, Lp_conjTranspose,
    Lm_conjTranspose]
  rw [show (star ((1 : ℂ) / 2)) = (1 : ℂ) / 2 by simp [Complex.star_def, map_div₀]]
  rw [add_comm (Lm d) (Lp d)]

theorem Ly_isHermitian (d : ℕ) : (Ly d).IsHermitian := by
  unfold Matrix.IsHermitian Ly
  rw [Matrix.conjTranspose_smul, Matrix.conjTranspose_sub, Lp_conjTranspose,
    Lm_conjTranspose]
  have hc : star ((1 : ℂ) / (2 * Complex.I)) = -((1 : ℂ) / (2 * Complex.I)) := by
    simp [Complex.star_def, map_div₀, Complex.conj_I]
  rw [hc, neg_smul, ← smul_neg, neg_sub]

theorem cMinus_sq (d : ℕ) (j : Fin d) :
    cMinus d j * cMinus d j = (j : ℝ) * ((d : ℝ) - (j : ℝ)) := by
  unfold cMinus
  have h1 : lval d * (lval d + 1) - mval d j * (mval d j - 1)
      = (j : ℝ) * ((d : ℝ) - (j : ℝ)) := by
    unfold mval lval
    ring
  rw [Real.mul_self_sqrt, h1]
  rw [h1]
  have hj : (j : ℝ) ≤ (d : ℝ) := by
    exact_mod_cast Nat.le_of_lt j.isLt
  have hj0 : (0 : ℝ) ≤ (j : ℝ) := by positivity
  nlinarith

theorem cPlus_sq (d : ℕ) (j : Fin d) :
    cPlus d j * cPlus d j = ((j : ℝ) + 1) * ((d : ℝ) - ((j : ℝ) + 1)) := by
  unfold cPlus
  have h1 : lval d * (lval d + 1) - mval d j * (mval d j + 1)
      = ((j : ℝ) + 1) * ((d : ℝ) - ((j : ℝ) + 1)) := by
    unfold mval lval
    ring
  rw [Real.mul_self_sqrt, h1]
  rw [h1]
  have hj : (j : ℝ) + 1 ≤ (d : ℝ) := by
    have := j.isLt
    exact_mod_cast Nat.succ_le_of_lt this
  nlinarith [Nat.cast_nonneg (α := ℝ) (j : ℕ)]

theorem LpLm_apply (d : ℕ) (i j : Fin d) :
    (Lp d * Lm d) i j =
      if (i : ℕ) = (j : ℕ) ∧ 1 ≤ (j : ℕ) then ((cMinus d j * cMinus d j : ℝ) : ℂ) else 0 := by
  rw [Matrix.mul_apply]
  rcases Nat.eq_zero_or_pos (j : ℕ) with hj | hj
  · rw [if_neg (by omega)]
    refine Finset.sum_eq_zero fun k _ => ?_
    simp only [Lp, Lm, Matrix.of_apply]
    rw [if_neg (show ¬((k : ℕ) + 1 = (j : ℕ)) by omega), mul_zero]
  · have hjd : (j : ℕ) - 1 < d := by omega
    rw [Finset.sum_eq_single (⟨(j : ℕ) - 1, hjd⟩ : Fin d)]
    · simp only [Lp, Lm, Matrix.of_apply]
      rw [if_pos
        (show ((⟨(j : ℕ) - 1, hjd⟩ : Fin d) : ℕ) + 1 = (j : ℕ) by
          simp only [Fin.val_mk]; omega)]
      by_cases hij : (i : ℕ) = (j : ℕ)
      · rw [if_pos
            (show (i : ℕ) = ((⟨(j : ℕ) - 1, hjd⟩ : Fin d) : ℕ) + 1 by
              simp only [Fin.val_mk]; omega),
          if_pos ⟨hij, hj⟩,
          (cMinus_eq_cPlus (⟨(j : ℕ) - 1, hjd⟩ : Fin d) j
            (by simp only [Fin.val_mk]; omega)).symm]
        push_cast
        ring
      · rw [if_neg
            (show ¬((i : ℕ) = ((⟨(j : ℕ) - 1, hjd⟩ : Fin d) : ℕ) + 1) by
              simp only [Fin.val_mk]; omega),
          zero_mul, if_neg (by tauto)]
    · intro k _ hk
      simp only [Lp, Lm, Matrix.of_apply]
      have hne : ¬((k : ℕ) + 1 = (j : ℕ)) := by
        intro hkj
        exact hk (Fin.ext (by simp only [Fin.val_mk]; omega))
      rw [if_neg hne, mul_zero]
    · intro h
      exact absurd (Finset.mem_univ _) h

theorem LmLp_apply (d : ℕ) (i j : Fin d) :
    (Lm d * Lp d) i j =
      if (i : ℕ) = (j : ℕ) ∧ (j : ℕ) + 1 < d then ((cPlus d j * cPlus d j : ℝ) : ℂ) else 0 := by
  rw [Matrix.mul_apply]
  by_cases hj : (j : ℕ) + 1 < d
  · rw [Finset.sum_eq_single (⟨(j : ℕ) + 1, hj⟩ : Fin d)]
    · simp only [Lp, Lm, Matrix.of_apply]
      rw [if_pos trivial]
      by_cases hij : (i : ℕ) = (j : ℕ)
      · rw [if_pos (show (i : ℕ) + 1 = (j : ℕ) + 1 by omega), if_pos ⟨hij, hj⟩,
          cMinus_eq_cPlus j (⟨(j : ℕ) + 1, hj⟩ : Fin d) (by simp only [Fin.val_mk])]
        push_cast
        ring
      · rw [if_neg (show ¬((i : ℕ) + 1 = (j : ℕ) + 1) by omega),
          zero_mul, if_neg (by tauto)]
    · intro k _ hk
      simp only [Lp, Lm, Matrix.of_apply]
      have hne : ¬((k : ℕ) = (j : ℕ) + 1) := by
        intro hkj
        exact hk (Fin.ext (by simp only [Fin.val_mk]; omega))
      rw [if_neg hne, mul_zero]
    · intro h
      exact absurd (Finset.mem_univ _) h
  · rw [if_neg (by tauto)]
    refine Finset.sum_eq_zero fun k _ => ?_
    simp only [Lp, Lm, Matrix.of_apply]
    have hne : ¬((k : ℕ) = (j : ℕ) + 1) := by
      have := k.isLt
      omega
    rw [if_neg hne, mul_zero]

/-- The ladder-operator commutation relation: the commutator of the raising
and lowering operators is `2 Lz`, proved entrywise from the square-root
matrix elements of the source. -/
theorem Lp_comm_Lm (d : ℕ) : Lp d * Lm d - Lm d * Lp d = (2 : ℂ) • Lz d := by
  ext i j
  rw [Matrix.sub_apply, LpLm_apply, LmLp_apply]
  simp only [Matrix.smul_apply, Lz, Matrix.diagonal_apply]
  by_cases hij : i = j
  · subst hij
    rw [if_pos rfl, smul_eq_mul, show (2 : ℂ) = ((2 : ℝ) : ℂ) from by norm_cast,
      ← Complex.ofReal_mul]
    by_cases h1 : 1 ≤ (i : ℕ) <;> by_cases h2 : (i : ℕ) + 1 < d
    · rw [if_pos ⟨rfl, h1⟩, if_pos ⟨rfl, h2⟩, cMinus_sq, cPlus_sq,
        ← Complex.ofReal_sub, Complex.ofReal_inj]
      unfold mval lval
      ring
    · rw [if_pos ⟨rfl, h1⟩, if_neg (by tauto), cMinus_sq, sub_zero, Complex.ofReal_inj]
      have hid : (i : ℕ) = d - 1 := by omega
      have hcast : ((i : ℕ) : ℝ) = (d : ℝ) - 1 := by
        have hd : 1 ≤ d := by omega
        rw [hid]
        push_cast [hd]
        ring
      rw [hcast]
      unfold mval lval
      rw [hcast]
      ring
    · rw [if_neg (by omega), if_pos ⟨rfl, h2⟩, zero_sub, cPlus_sq, ← Complex.ofReal_neg,
        Complex.ofReal_inj]
      have hcast : ((i : ℕ) : ℝ) = 0 := by
        exact_mod_cast (by omega : (i : ℕ) = 0)
      rw [hcast]
      unfold mval lval
      rw [hcast]
      ring
    · rw [if_neg (by omega), if_neg (by tauto), sub_zero]
      have hd1 : d = 1 := by
        have := i.isLt
        omega
      have hcast : ((i : ℕ) : ℝ) = 0 := by
        exact_mod_cast (by omega : (i : ℕ) = 0)
      unfold mval lval
      rw [hcast, hd1]
      norm_num
  · have hij2 : ¬((i : ℕ) = (j : ℕ)) := fun h => hij (Fin.ext h)
    rw [if_neg (by tauto), if_neg (by tauto), if_neg hij, sub_zero, smul_zero]

/-- The Cartesian commutation relation `Lx Ly - Ly Lx = i Lz` for the
operators built by `get_angular_momentum_operators`. -/
theorem Lx_comm_Ly (d : ℕ) : Lx d * Ly d - Ly d * Lx d = Complex.I • Lz d := by
  unfold Lx Ly
  rw [Matrix.smul_mul, Matrix.mul_smul, Matrix.smul_mul, Matrix.mul_smul, smul_smul,
    smul_smul]
  have hanti : (Lp d + Lm d) * (Lp d - Lm d) =
      Lp d * Lp d - Lp d * Lm d + Lm d * Lp d - Lm d * Lm d := by
    rw [mul_sub, add_mul, add_mul]
    abel
  have hanti2 : (Lp d - Lm d) * (Lp d + Lm d) =
      Lp d * Lp d + Lp d * Lm d - Lm d * Lp d - Lm d * Lm d := by
    rw [mul_add, sub_mul, sub_mul]
    abel
  rw [hanti, hanti2, mul_comm ((1 : ℂ) / (2 * Complex.I)) ((1 : ℂ) / 2), ← smul_sub]
  have hdiff : (Lp d * Lp d - Lp d * Lm d + Lm d * Lp d - Lm d * Lm d) -
      (Lp d * Lp d + Lp d * Lm d - Lm d * Lp d - Lm d * Lm d) =
      (-2 : ℂ) • (Lp d * Lm d - Lm d * Lp d) := by
    rw [show ((-2 : ℂ)) • (Lp d * Lm d - Lm d * Lp d) =
        -((Lp d * Lm d - Lm d * Lp d) + (Lp d * Lm d - Lm d * Lp d)) by
      rw [neg_smul, two_smul]]
    abel
  rw [hdiff, Lp_comm_Lm, smul_smul, smul_smul]
  congr 1
  have hI := Complex.I_ne_zero
  field_simp
  ring_nf
  simp [Complex.I_sq]

/-! ## Spherical-to-cubic transform and `rotate_QE_matrix` -/

/-- The constant `1/sqrt 2` appearing in the fixed transform table. -/
noncomputable def sqrt2inv : ℂ := ((Real.sqrt 2)⁻¹ : ℝ)

/-- The fixed 5x5 change of basis returned by
`spherical_to_cubic_rotation(dim=5, convention='qe')`; rows are the QE
cubic orbitals, columns the spherical harmonics (m = -2..2). Any other
dimension or convention raises `ValueError` in the source, so only the
5x5 table is embedded. -/
noncomputable def Tqe : Matrix (Fin 5) (Fin 5) ℂ :=
  !![0, 0, 1, 0, 0;
     0, sqrt2inv, 0, -sqrt2inv, 0;
     0, Complex.I * sqrt2inv, 0, Complex.I * sqrt2inv, 0;
     Complex.I * sqrt2inv, 0, 0, 0, -(Complex.I * sqrt2inv);
     sqrt2inv, 0, 0, 0, sqrt2inv]

theorem sqrt2inv_mul_self : sqrt2inv * sqrt2inv = (1 : ℂ) / 2 := by
  unfold sqrt2inv
  rw [← Complex.ofReal_mul, ← mul_inv, Real.mul_self_sqrt (by norm_num : (0 : ℝ) ≤ 2)]
  norm_num

/-- The fixed transform is unitary. -/
theorem Tqe_mul_conjTranspose : Tqe * Tqeᴴ = 1 := by
  have hconj : (starRingEnd ℂ) sqrt2inv = sqrt2inv := Complex.conj_ofReal _
  have hs2 := sqrt2inv_mul_self
  ext i j
  fin_cases i <;> fin_cases j <;>
    simp [Tqe, Matrix.mul_apply, Fin.sum_univ_five, Matrix.conjTranspose_apply,
      Matrix.one_apply, hconj, map_mul, Complex.conj_I] <;>
    (try ring_nf) <;>
    (try simp [Complex.I_sq]) <;>
    first
      | rfl
      | linear_combination 2 * hs2

theorem Tqe_conjTranspose_mul : Tqeᴴ * Tqe = 1 :=
  Matrix.mul_eq_one_comm.mp Tqe_mul_conjTranspose

/-- Euclidean norm of a 3-vector (`numpy.linalg.norm`). -/
noncomputable def axisNorm (a : Fin 3 → ℝ) : ℝ :=
  Real.sqrt (a 0 ^ 2 + a 1 ^ 2 + a 2 ^ 2)

theorem axisNorm_ne_zero {a : Fin 3 → ℝ} (h : a ≠ 0) : axisNorm a ≠ 0 := by
  unfold axisNorm
  intro hz
  have h0 : (0 : ℝ) ≤ a 0 ^ 2 + a 1 ^ 2 + a 2 ^ 2 := by positivity
  have hsum : a 0 ^ 2 + a 1 ^ 2 + a 2 ^ 2 = 0 :=
    (Real.sqrt_eq_zero h0).mp hz
  apply h
  have h0' : a 0 = 0 := by nlinarith [sq_nonneg (a 0), sq_nonneg (a 1), sq_nonneg (a 2)]
  have h1' : a 1 = 0 := by nlinarith [sq_nonneg (a 0), sq_nonneg (a 1), sq_nonneg (a 2)]
  have h2' : a 2 = 0 := by nlinarith [sq_nonneg (a 0), sq_nonneg (a 1), sq_nonneg (a 2)]
  funext i
  fin_cases i
  · exact h0'
  · exact h1'
  · exact h2'

open scoped Classical

/-- Embedding of `get_rotation_matrix(angle, axis, Lx, Ly, Lz)`: rejects a
zero axis with `ValueError` (the 3-component requirement is enforced by the
type of `axis`), normalises the axis, and returns
`expm(-i angle (axis . L))`. -/
noncomputable def get_rotation_matrix {d : ℕ} (angle : ℝ) (axis : Fin 3 → ℝ)
    (LX LY LZ : Matrix (Fin d) (Fin d) ℂ) : Except PyErr (Matrix (Fin d) (Fin d) ℂ) :=
  if axisNorm axis = 0 then .error .valueError
  else .ok (NormedSpace.exp ℂ ((-(Complex.I * (angle : ℂ))) •
    (((axis 0 / axisNorm axis : ℝ) : ℂ) • LX +
     ((axis 1 / axisNorm axis : ℝ) : ℂ) • LY +
     ((axis 2 / axisNorm axis : ℝ) : ℂ) • LZ)))

/-- Embedding of `rotate_QE_matrix(rho_qe, angle, axis)`: infers `l` from
the dimension (here the only dimension accepted by the fixed transform,
`dim = 5`, so `l = 2`), builds the rotation operator, conjugates it into
the cubic basis and applies the similarity transform. -/
noncomputable def rotate_QE_matrix (rho : Matrix (Fin 5) (Fin 5) ℂ) (angle : ℝ)
    (axis : Fin 3 → ℝ) : Except PyErr (Matrix (Fin 5) (Fin 5) ℂ) :=
  match get_rotation_matrix angle axis (Lx 5) (Ly 5) (Lz 5) with
  | .error e => .error e
  | .ok R => .ok ((Tqe * R * Tqeᴴ) * rho * (Tqe * R * Tqeᴴ)ᴴ)

/-- A real linear combination of the angular momentum operators is
Hermitian. -/
theorem generator_herm (d : ℕ) (a b c : ℝ) :
    ((a : ℂ) • Lx d + (b : ℂ) • Ly d + (c : ℂ) • Lz d)ᴴ =
      (a : ℂ) • Lx d + (b : ℂ) • Ly d + (c : ℂ) • Lz d := by
  rw [Matrix.conjTranspose_add, Matrix.conjTranspose_add, Matrix.conjTranspose_smul,
    Matrix.conjTranspose_smul, Matrix.conjTranspose_smul, Lx_isHermitian d,
    Ly_isHermitian d, Lz_isHermitian d, Complex.star_def, Complex.conj_ofReal,
    Complex.conj_ofReal, Complex.conj_ofReal]

/-- The exponential of a skew-Hermitian matrix is unitary. -/
theorem exp_skew_unitary {d : ℕ} (A : Matrix (Fin d) (Fin d) ℂ) (h : Aᴴ = -A) :
    NormedSpace.exp ℂ A * (NormedSpace.exp ℂ A)ᴴ = 1 ∧
      (NormedSpace.exp ℂ A)ᴴ * NormedSpace.exp ℂ A = 1 := by
  have hstar : (NormedSpace.exp ℂ A)ᴴ = NormedSpace.exp ℂ (-A) := by
    rw [← Matrix.exp_conjTranspose, h]
  constructor
  · rw [hstar, ← Matrix.exp_add_of_commute ℂ A (-A) (Commute.neg_right (Commute.refl A))]
    rw [add_neg_cancel]
    exact NormedSpace.exp_zero
  · rw [hstar, ← Matrix.exp_add_of_commute ℂ (-A) A (Commute.neg_left (Commute.refl A))]
    rw [neg_add_cancel]
    exact NormedSpace.exp_zero

/-- `get_rotation_matrix` succeeds on a non-degenerate axis and returns a
unitary matrix. -/
theorem get_rotation_matrix_unitary {d : ℕ} (angle : ℝ) (axis : Fin 3 → ℝ)
    (h : axisNorm axis ≠ 0) :
    ∃ R, get_rotation_matrix angle axis (Lx d) (Ly d) (Lz d) = .ok R ∧
      R * Rᴴ = 1 ∧ Rᴴ * R = 1 := by
  refine ⟨_, by rw [get_rotation_matrix, if_neg h], ?_, ?_⟩ <;>
  · have hskew : ((-(Complex.I * (angle : ℂ))) •
        (((axis 0 / axisNorm axis : ℝ) : ℂ) • Lx d +
         ((axis 1 / axisNorm axis : ℝ) : ℂ) • Ly d +
         ((axis 2 / axisNorm axis : ℝ) : ℂ) • Lz d))ᴴ =
        -((-(Complex.I * (angle : ℂ))) •
        (((axis 0 / axisNorm axis : ℝ) : ℂ) • Lx d +
         ((axis 1 / axisNorm axis : ℝ) : ℂ) • Ly d +
         ((axis 2 / axisNorm axis : ℝ) : ℂ) • Lz d)) := by
      rw [Matrix.conjTranspose_smul, generator_herm, ← neg_smul]
      congr 1
      simp [Complex.star_def, map_mul, Complex.conj_I, Complex.conj_ofReal]
    have := exp_skew_unitary _ hskew
    tauto

/-- Conjugation by a matrix preserves Hermiticity. -/
theorem conj_herm {n : ℕ} (U M : Matrix (Fin n) (Fin n) ℂ) (hM : Mᴴ = M) :
    (U * M * Uᴴ)ᴴ = U * M * Uᴴ := by
  rw [Matrix.conjTranspose_mul, Matrix.conjTranspose_mul,
    Matrix.conjTranspose_conjTranspose, hM, Matrix.mul_assoc]

/-- Conjugation by a unitary matrix preserves the trace. -/
theorem conj_trace {n : ℕ} (U M : Matrix (Fin n) (Fin n) ℂ) (hU : Uᴴ * U = 1) :
    (U * M * Uᴴ).trace = M.trace := by
  rw [Matrix.trace_mul_cycle, hU, Matrix.one_mul]

/-- A unitary conjugate `Tqe R Tqeᴴ` of a unitary `R` is unitary. -/
theorem cubic_unitary (R : Matrix (Fin 5) (Fin 5) ℂ) (h1 : R * Rᴴ = 1) (h2 : Rᴴ * R = 1) :
    (Tqe * R * Tqeᴴ) * (Tqe * R * Tqeᴴ)ᴴ = 1 ∧
      (Tqe * R * Tqeᴴ)ᴴ * (Tqe * R * Tqeᴴ) = 1 := by
  constructor
  · rw [Matrix.conjTranspose_mul, Matrix.conjTranspose_mul,
      Matrix.conjTranspose_conjTranspose]
    simp only [Matrix.mul_assoc]
    rw [← Matrix.mul_assoc Tqeᴴ Tqe, Tqe_conjTranspose_mul, Matrix.one_mul,
      ← Matrix.mul_assoc R Rᴴ, h1, Matrix.one_mul, Tqe_mul_conjTranspose]
  · rw [Matrix.conjTranspose_mul, Matrix.conjTranspose_mul,
      Matrix.conjTranspose_conjTranspose]
    simp only [Matrix.mul_assoc]
    rw [← Matrix.mul_assoc Tqeᴴ Tqe, Tqe_conjTranspose_mul, Matrix.one_mul,
      ← Matrix.mul_assoc Rᴴ R, h2, Matrix.one_mul, Tqe_mul_conjTranspose]

/-- `rotate_QE_matrix` succeeds on a non-degenerate axis; the result is the
input conjugated by a unitary matrix, hence Hermiticity and trace are
preserved. This is the shared preservation lemma behind the rotation
invariant. -/
theorem rotate_QE_matrix_ok (rho : Matrix (Fin 5) (Fin 5) ℂ) (angle : ℝ)
    (axis : Fin 3 → ℝ) (h : axisNorm axis ≠ 0) :
    ∃ out, rotate_QE_matrix rho angle axis = .ok out ∧
      out.trace = rho.trace ∧ (rho.IsHermitian → out.IsHermitian) := by
  obtain ⟨R, hR, hR1, hR2⟩ := get_rotation_matrix_unitary (d := 5) angle axis h
  obtain ⟨hc1, hc2⟩ := cubic_unitary R hR1 hR2
  refine ⟨_, by rw [rotate_QE_matrix, hR], ?_, ?_⟩
  · exact conj_trace _ _ hc2
  · intro hrho
    exact conj_herm _ _ hrho

/-! ## The validated operator constructor -/

/-- The five operators returned by `get_angular_momentum_operators`. -/
structure AngularOps (d : ℕ) where
  lx : Matrix (Fin d) (Fin d) ℂ
  ly : Matrix (Fin d) (Fin d) ℂ
  lz : Matrix (Fin d) (Fin d) ℂ
  lplus : Matrix (Fin d) (Fin d) ℂ
  lminus : Matrix (Fin d) (Fin d) ℂ

/-- The matrix dimension `int(2 l + 1)` used by the source for a valid
quantum number `l`. -/
def dimOfL (l : ℚ) : ℕ := (2 * l).num.toNat + 1

/-- Embedding of `get_angular_momentum_operators(l)`. The quantum number
(an `int` or `float` in Python) is modelled as a rational; the guard
`l < 0 or (l * 2) % 1 != 0` becomes the validity test below, failing with
`ValueError` exactly when `l` is negative or not a multiple of `1/2`. -/
noncomputable def get_angular_momentum_operators (l : ℚ) :
    Except PyErr (Σ d : ℕ, AngularOps d) :=
  if 0 ≤ l ∧ (2 * l).den = 1 then
    .ok ⟨dimOfL l,
      ⟨Lx (dimOfL l), Ly (dimOfL l), Lz (dimOfL l), Lp (dimOfL l), Lm (dimOfL l)⟩⟩
  else .error .valueError

theorem lval_dimOfL {l : ℚ} (h0 : 0 ≤ l) (hden : (2 * l).den = 1) :
    lval (dimOfL l) = (l : ℝ) := by
  have hnum : (((2 * l).num : ℚ)) = 2 * l := by
    rw [← Rat.den_eq_one_iff]
    exact hden
  have hnn : 0 ≤ (2 * l).num := by
    rw [Rat.num_nonneg]
    positivity
  unfold lval dimOfL
  have h1 : (((2 * l).num.toNat : ℕ) : ℝ) = (((2 * l).num : ℤ) : ℝ) := by
    exact_mod_cast Int.toNat_of_nonneg hnn
  have h2 : (((2 * l).num : ℤ) : ℝ) = 2 * (l : ℝ) := by
    exact_mod_cast congrArg (fun q : ℚ => (q : ℝ)) hnum
  have hcast : (((2 * l).num.toNat + 1 : ℕ) : ℝ) = 2 * (l : ℝ) + 1 := by
    push_cast
    rw [h1, h2]
  rw [hcast]
  ring

/-! ## Claim C1: rotation preserves Hermiticity and trace -/

/-- C1. For every Hermitian state matrix and every angle and non-zero
axis, `rotate_QE_matrix` succeeds and returns a Hermitian matrix whose
trace equals the trace of the input (the similarity transform is by a
unitary matrix). The state-matrix dimension is the `d`-orbital dimension
5, the only one the fixed spherical-to-cubic transform accepts. -/
theorem C1_rotate_preserves_hermitian_trace (rho : Matrix (Fin 5) (Fin 5) ℂ)
    (angle : ℝ) (axis : Fin 3 → ℝ) (hherm : rho.IsHermitian) (haxis : axis ≠ 0) :
    ∃ out, rotate_QE_matrix rho angle axis = .ok out ∧
      out.IsHermitian ∧ out.trace = rho.trace := by
  obtain ⟨out, hok, htr, hh⟩ := rotate_QE_matrix_ok rho angle axis (axisNorm_ne_zero haxis)
  exact ⟨out, hok, hh hherm, htr⟩

/-- Witness for C1 at the identity state matrix and the z axis. -/
theorem C1_witness :
    ∃ out, rotate_QE_matrix 1 (1 : ℝ) (fun _ => 1) = .ok out ∧
      out.IsHermitian ∧ out.trace = (1 : Matrix (Fin 5) (Fin 5) ℂ).trace :=
  C1_rotate_preserves_hermitian_trace 1 1 (fun _ => 1) Matrix.isHermitian_one
    (fun h => by simpa using congrFun h 0)

/-! ## Claim C9: commutation relation and validation of `l` -/

/-- C9. For every valid quantum number `l` (non-negative multiple of
`1/2`), the returned operators satisfy `Lx Ly - Ly Lx = i Lz`, and `Lz`
is diagonal with entries `m = -l, -l+1, ..., +l` in increasing order
(entry `i` is `-l + i`); for every invalid `l` the call fails with a
validation error. -/
theorem C9_angular_momentum_operators (l : ℚ) :
    ((0 ≤ l ∧ (2 * l).den = 1) →
      ∃ ops : AngularOps (dimOfL l),
        get_angular_momentum_operators l = .ok ⟨dimOfL l, ops⟩ ∧
        ops.lx * ops.ly - ops.ly * ops.lx = Complex.I • ops.lz ∧
        ops.lz = Matrix.diagonal
          (fun i : Fin (dimOfL l) => ((-(l : ℝ) + (i : ℝ) : ℝ) : ℂ))) ∧
    (¬(0 ≤ l ∧ (2 * l).den = 1) →
      get_angular_momentum_operators l = .error .valueError) := by
  constructor
  · rintro ⟨h0, hden⟩
    refine ⟨_, by rw [get_angular_momentum_operators, if_pos ⟨h0, hden⟩], ?_, ?_⟩
    · exact Lx_comm_Ly (dimOfL l)
    · unfold Lz
      funext i
      simp only [mval, lval_dimOfL h0 hden]
  · intro h
    rw [get_angular_momentum_operators, if_neg h]

/-- Witness for C9: the half-integer quantum number `l = 3/2` is accepted
(with the commutation relation holding), and `l = -1` is rejected. -/
theorem C9_witness :
    (∃ ops : AngularOps (dimOfL (3 / 2)),
        get_angular_momentum_operators (3 / 2) = .ok ⟨dimOfL (3 / 2), ops⟩ ∧
        ops.lx * ops.ly - ops.ly * ops.lx = Complex.I • ops.lz ∧
        ops.lz = Matrix.diagonal
          (fun i : Fin (dimOfL (3 / 2)) => ((-((3 / 2 : ℚ) : ℝ) + (i : ℝ) : ℝ) : ℂ))) ∧
    get_angular_momentum_operators (-1) = .error .valueError :=
  ⟨(C9_angular_momentum_operators (3 / 2)).1 (by constructor <;> norm_num),
   (C9_angular_momentum_operators (-1)).2 (by decide)⟩

/-! ## Generational search controller (`global_constrained_search.py`)

The controller state is the subset of the workchain context (`self.ctx`)
that the claims are about. Occupation matrices are tracked by their node
pks (integers); the scan output marks a failed calculation with the
sentinel pk `-1`. The external job-execution collaborator is an oracle
mapping a generation index and batch size to the two output lists of
`ConstrainedScanWorkChain` (`all_occupation_matrices`, `calculation_pks`);
per the collaborator contract both lists have one entry per submitted
proposal. -/

structure GSInputs where
  Nmax : ℕ
  N : ℕ
  holistic : Bool
deriving DecidableEq, Repr

structure GSCtx where
  N_cumulative : ℕ
  generation : ℕ
  result_matrices_pks : List ℤ
  all_matrices_pks : List ℤ
  all_calculation_pks : List ℤ
  seed_for_next : List ℤ
deriving DecidableEq, Repr

/-- Embedding of `process_afm_results`: counters start at zero and the AFM
occupation matrices seed both cumulative pools and the first proposal
round. -/
def initCtx (afm : List ℤ) : GSCtx :=
  { N_cumulative := 0
    generation := 0
    result_matrices_pks := afm
    all_matrices_pks := afm
    all_calculation_pks := []
    seed_for_next := afm }

/-- One iteration of the outline loop
(`run_constrained_batch`, `process_constrained_results`, `update_counters`)
applied to the scan outputs `ms` (matrix pks, `-1` on failure) and `cs`
(calculation pks). A generation with zero successful calculations returns
the `ERROR_CONSTRAINED_SCAN_FAILED` exit before any pool is extended
(modelled as `Except.error` carrying the context as the workchain leaves
it); otherwise the pools are extended, the seed for the next proposal call
is chosen by `proposal_holistic` (only while the budget is not yet
exhausted), and the cumulative counter grows by the generation's
calculation count. -/
def loopIter (inp : GSInputs) (ms cs : List ℤ) (ctx : GSCtx) : Except GSCtx GSCtx :=
  let g := ctx.generation + 1
  let successful := ms.filter (fun pk => pk ≠ -1)
  if successful.length = 0 then
    .error { ctx with generation := g }
  else
    let pool := ctx.result_matrices_pks ++ successful
    .ok { N_cumulative := ctx.N_cumulative + cs.length
          generation := g
          result_matrices_pks := pool
          all_matrices_pks := ctx.all_matrices_pks ++ ms
          all_calculation_pks := ctx.all_calculation_pks ++ cs
          seed_for_next :=
            if ctx.N_cumulative + cs.length < inp.Nmax then
              (if inp.holistic then pool else successful)
            else ctx.seed_for_next }

/-- Terminal states of a controller run. -/
inductive RunOutcome where
  | budget : RunOutcome
  | allFailed : RunOutcome
deriving DecidableEq, Repr

/-- Driver for the outline loop `while N_cumulative < Nmax`. Each pass
submits `min N (Nmax - N_cumulative)` proposals (`run_constrained_batch`)
and feeds the oracle's outputs to `loopIter`. `fuel` bounds the number of
iterations modelled; exhausting it reports `none` in place of an outcome.
Returns the batch sizes submitted per generation, the final context, and
the outcome. -/
def runLoop (inp : GSInputs) (oracle : ℕ → ℕ → List ℤ × List ℤ) :
    ℕ → GSCtx → List ℕ × GSCtx × Option RunOutcome
  | fuel, ctx =>
    if ctx.N_cumulative < inp.Nmax then
      match fuel with
      | 0 => ([], ctx, none)
      | fuel + 1 =>
        let n := min inp.N (inp.Nmax - ctx.N_cumulative)
        let res := oracle (ctx.generation + 1) n
        match loopIter inp res.1 res.2 ctx with
        | .error ctxf => ([n], ctxf, some .allFailed)
        | .ok ctx2 =>
          let rest := runLoop inp oracle fuel ctx2
          (n :: rest.1, rest.2.1, rest.2.2)
    else ([], ctx, some .budget)

/-- An external collaborator on which every calculation succeeds: all
matrix pks are positive (never the failure sentinel `-1`), and both output
lists have one entry per submitted proposal. -/
def allOkOracle : ℕ → ℕ → List ℤ × List ℤ := fun g n =>
  ((List.range n).map (fun i : ℕ => 100 * (g : ℤ) + (i : ℤ) + 1),
   (List.range n).map (fun i : ℕ => 1000 * (g : ℤ) + (i : ℤ) + 1))

/-- Budget invariant behind claim C2: if the oracle is length-preserving
on calculation pks, the cumulative counter never exceeds `Nmax`. -/
theorem runLoop_cumulative_le (inp : GSInputs) (oracle : ℕ → ℕ → List ℤ × List ℤ)
    (hlen : ∀ g n, (oracle g n).2.length = n) :
    ∀ fuel ctx, ctx.N_cumulative ≤ inp.Nmax →
      (runLoop inp oracle fuel ctx).2.1.N_cumulative ≤ inp.Nmax := by
  intro fuel
  induction fuel with
  | zero =>
    intro ctx h
    rw [runLoop]
    by_cases hlt : ctx.N_cumulative < inp.Nmax
    · rw [if_pos hlt]
      exact h
    · rw [if_neg hlt]
      exact h
  | succ fuel ih =>
    intro ctx h
    rw [runLoop]
    by_cases hlt : ctx.N_cumulative < inp.Nmax
    · rw [if_pos hlt]
      simp only
      rcases hok : loopIter inp (oracle (ctx.generation + 1)
          (min inp.N (inp.Nmax - ctx.N_cumulative))).1
          (oracle (ctx.generation + 1) (min inp.N (inp.Nmax - ctx.N_cumulative))).2 ctx
        with ctxf | ctx2
      · simp only [hok]
        unfold loopIter at hok
        by_cases hz : ((oracle (ctx.generation + 1)
            (min inp.N (inp.Nmax - ctx.N_cumulative))).1.filter
              (fun pk => pk ≠ -1)).length = 0
        · simp only [hz, if_pos rfl] at hok
          cases hok
          exact h
        · rw [if_neg hz] at hok
          cases hok
      · simp only [hok]
        refine ih ctx2 ?_
        unfold loopIter at hok
        by_cases hz : ((oracle (ctx.generation + 1)
            (min inp.N (inp.Nmax - ctx.N_cumulative))).1.filter
              (fun pk => pk ≠ -1)).length = 0
        · simp only [hz, if_pos rfl] at hok
          cases hok
        · rw [if_neg hz] at hok
          cases hok
          simp only [hlen]
          omega
    · rw [if_neg hlt]
      exact h

/-- C2. In a run where every evaluation succeeds: each generation submits
exactly `min N (Nmax - cumulative)` proposals (first conjunct, stated from
an arbitrary reachable context), the cumulative count of submitted
evaluations never exceeds `Nmax` for a length-preserving collaborator
(second conjunct), and the concrete scenario `Nmax = 10, N = 4` submits
batches `[4, 4, 2]` and terminates on the budget (third conjunct). -/
theorem C2_batch_sizes_and_budget :
    (∀ (inp : GSInputs) (oracle : ℕ → ℕ → List ℤ × List ℤ) (fuel : ℕ) (ctx : GSCtx),
      ctx.N_cumulative < inp.Nmax →
      (runLoop inp oracle (fuel + 1) ctx).1.head? =
        some (min inp.N (inp.Nmax - ctx.N_cumulative))) ∧
    (∀ (inp : GSInputs) (oracle : ℕ → ℕ → List ℤ × List ℤ),
      (∀ g n, (oracle g n).2.length = n) →
      ∀ fuel ctx, ctx.N_cumulative ≤ inp.Nmax →
        (runLoop inp oracle fuel ctx).2.1.N_cumulative ≤ inp.Nmax) ∧
    (runLoop ⟨10, 4, false⟩ allOkOracle 10 (initCtx [1])).1 = [4, 4, 2] ∧
    (runLoop ⟨10, 4, false⟩ allOkOracle 10 (initCtx [1])).2.2 = some .budget := by
  refine ⟨?_, fun inp oracle hlen => runLoop_cumulative_le inp oracle hlen, ?_, ?_⟩
  · intro inp oracle fuel ctx hlt
    rw [runLoop, if_pos hlt]
    simp only
    rcases loopIter inp (oracle (ctx.generation + 1)
        (min inp.N (inp.Nmax - ctx.N_cumulative))).1
        (oracle (ctx.generation + 1) (min inp.N (inp.Nmax - ctx.N_cumulative))).2 ctx
      with ctxf | ctx2 <;> rfl
  · decide
  · decide

/-- Witness for C2 at the concrete scenario of the claim. -/
theorem C2_witness :
    ((initCtx [1]).N_cumulative < (10 : ℕ) ∧
      (runLoop ⟨10, 4, false⟩ allOkOracle 10 (initCtx [1])).1.head? = some (min 4 10)) ∧
    ((∀ g n, ((allOkOracle g n).2.length = n)) ∧
      (runLoop ⟨10, 4, false⟩ allOkOracle 10 (initCtx [1])).2.1.N_cumulative ≤ 10) := by
  constructor
  · refine ⟨by decide, ?_⟩
    have h := C2_batch_sizes_and_budget.1 ⟨10, 4, false⟩ allOkOracle 9 (initCtx [1])
      (by decide)
    simpa using h
  · have hlen : ∀ g n, ((allOkOracle g n).2.length = n) := by
      intro g n
      unfold allOkOracle
      rw [List.length_map, List.length_range]
    refine ⟨hlen, ?_⟩
    exact C2_batch_sizes_and_budget.2.1 ⟨10, 4, false⟩ allOkOracle hlen 10 (initCtx [1])
      (by decide)

/-- C3. If a generation's batch returns zero successful results, the run
moves to the distinct all-failed terminal state (the reported
`ERROR_CONSTRAINED_SCAN_FAILED` exit): that generation is the last one
attempted (the driver records exactly one batch and stops) and nothing
from it is added to the successful-result pool or the seed pool. A
generation with at least one success and at least one failure is not
terminal: the iteration returns a continuing context. -/
theorem C3_all_failed_terminal :
    (∀ (inp : GSInputs) (oracle : ℕ → ℕ → List ℤ × List ℤ) (fuel : ℕ) (ctx : GSCtx),
      ctx.N_cumulative < inp.Nmax →
      ((oracle (ctx.generation + 1) (min inp.N (inp.Nmax - ctx.N_cumulative))).1.filter
        (fun pk => pk ≠ -1)).length = 0 →
      ∃ ctxf, runLoop inp oracle (fuel + 1) ctx =
          ([min inp.N (inp.Nmax - ctx.N_cumulative)], ctxf, some .allFailed) ∧
        ctxf.result_matrices_pks = ctx.result_matrices_pks ∧
        ctxf.seed_for_next = ctx.seed_for_next ∧
        ctxf.N_cumulative = ctx.N_cumulative) ∧
    (∀ (inp : GSInputs) (ms cs : List ℤ) (ctx : GSCtx),
      (∃ pk ∈ ms, pk ≠ -1) → (∃ pk ∈ ms, pk = -1) →
      ∃ ctx2, loopIter inp ms cs ctx = .ok ctx2) := by
  constructor
  · intro inp oracle fuel ctx hlt hz
    rw [runLoop, if_pos hlt]
    simp only
    rw [loopIter]
    simp only [hz, if_pos rfl]
    exact ⟨_, rfl, rfl, rfl, rfl⟩
  · intro inp ms cs ctx hsucc _
    rw [loopIter]
    obtain ⟨pk, hmem, hpk⟩ := hsucc
    rw [if_neg ?_]
    · exact ⟨_, rfl⟩
    · intro hlen
      have : pk ∈ ms.filter (fun pk => pk ≠ -1) := by
        rw [List.mem_filter]
        exact ⟨hmem, by simpa using hpk⟩
      rw [List.length_eq_zero.mp hlen] at this
      exact absurd this (List.not_mem_nil pk)

/-- A collaborator on which every calculation of every batch fails. -/
def allFailOracle : ℕ → ℕ → List ℤ × List ℤ := fun _ _ =>
  ([-1, -1, -1, -1], [201, 202, 203, 204])

/-- Witness for C3: a first generation in which the collaborator reports
0/4 successes stops the run in the all-failed state with the pools intact,
and a 3-success/1-failure batch yields a continuing context. -/
theorem C3_witness :
    (((initCtx [1]).N_cumulative < (10 : ℕ) ∧
      ((allFailOracle ((initCtx [1]).generation + 1)
          (min 4 (10 - (initCtx [1]).N_cumulative))).1.filter
        (fun pk => pk ≠ -1)).length = 0) ∧
      ∃ ctxf, runLoop ⟨10, 4, false⟩ allFailOracle 10 (initCtx [1]) =
          ([min 4 (10 - (initCtx [1]).N_cumulative)], ctxf, some .allFailed) ∧
        ctxf.result_matrices_pks = (initCtx [1]).result_matrices_pks ∧
        ctxf.seed_for_next = (initCtx [1]).seed_for_next ∧
        ctxf.N_cumulative = (initCtx [1]).N_cumulative) ∧
    ((∃ pk ∈ [(21 : ℤ), 22, 23, -1], pk ≠ -1) ∧
      ∃ ctx2, loopIter ⟨10, 4, false⟩ [(21 : ℤ), 22, 23, -1] [201, 202, 203, 204]
        (initCtx [1]) = .ok ctx2) := by
  constructor
  · refine ⟨⟨by decide, by decide⟩, ?_⟩
    refine C3_all_failed_terminal.1 ⟨10, 4, false⟩ allFailOracle 9 (initCtx [1])
      (by decide) (by decide)
  · refine ⟨⟨21, by decide, by decide⟩, ?_⟩
    exact C3_all_failed_terminal.2 ⟨10, 4, false⟩ [(21 : ℤ), 22, 23, -1]
      [201, 202, 203, 204] (initCtx [1]) ⟨21, by decide, by decide⟩
      ⟨-1, by decide, by decide⟩

/-- The concrete external collaborator of the holistic/Markovian scenario:
generation 1 returns 4 successes, generation 2 returns 3 successes and one
failure. -/
def twoGenOracle : ℕ → ℕ → List ℤ × List ℤ := fun g _ =>
  if g = 1 then ([11, 12, 13, 14], [101, 102, 103, 104])
  else ([21, 22, 23, -1], [201, 202, 203, 204])

/-- C4. The seed pool handed to the proposal generator after a successful
generation is: in Markovian mode exactly the successful results of that
(immediately preceding) generation, and in holistic mode the accumulated
successful-result pool — which the same iteration extends from the pool so
far (initialised with the initial exploration round's successes) by the
current successes. Concretely, after generations with 4 and 3 successes on
top of 2 initial-exploration successes, the holistic seed pool has size
7 + 2 and the Markovian seed pool is exactly the 3 latest successes. -/
theorem C4_seed_pool_selection :
    (∀ (inp : GSInputs) (ms cs : List ℤ) (ctx : GSCtx),
      (ms.filter (fun pk => pk ≠ -1)).length ≠ 0 →
      ctx.N_cumulative + cs.length < inp.Nmax →
      ∃ ctx2, loopIter inp ms cs ctx = .ok ctx2 ∧
        ctx2.result_matrices_pks =
          ctx.result_matrices_pks ++ ms.filter (fun pk => pk ≠ -1) ∧
        ctx2.seed_for_next =
          (if inp.holistic then
            ctx.result_matrices_pks ++ ms.filter (fun pk => pk ≠ -1)
          else ms.filter (fun pk => pk ≠ -1))) ∧
    (∀ afm : List ℤ, (initCtx afm).result_matrices_pks = afm) ∧
    (runLoop ⟨20, 4, true⟩ twoGenOracle 2 (initCtx [1, 2])).2.1.seed_for_next =
      [1, 2, 11, 12, 13, 14, 21, 22, 23] ∧
    (runLoop ⟨20, 4, false⟩ twoGenOracle 2 (initCtx [1, 2])).2.1.seed_for_next =
      [21, 22, 23] := by
  refine ⟨?_, fun _ => rfl, by decide, by decide⟩
  intro inp ms cs ctx hz hlt
  rw [loopIter]
  simp only
  rw [if_neg hz, if_pos hlt]
  exact ⟨_, rfl, rfl, rfl⟩

/-- Witness for C4 at a concrete successful generation in Markovian mode. -/
theorem C4_witness :
    (([(21 : ℤ), 22, 23, -1].filter (fun pk => pk ≠ -1)).length ≠ 0 ∧
      (initCtx [1, 2]).N_cumulative + ([(201 : ℤ), 202, 203, 204] : List ℤ).length < 20) ∧
    ∃ ctx2, loopIter ⟨20, 4, false⟩ [(21 : ℤ), 22, 23, -1] [201, 202, 203, 204]
        (initCtx [1, 2]) = .ok ctx2 ∧
      ctx2.result_matrices_pks =
        (initCtx [1, 2]).result_matrices_pks ++
          [(21 : ℤ), 22, 23, -1].filter (fun pk => pk ≠ -1) ∧
      ctx2.seed_for_next =
        (if (false : Bool) then
          (initCtx [1, 2]).result_matrices_pks ++
            [(21 : ℤ), 22, 23, -1].filter (fun pk => pk ≠ -1)
        else [(21 : ℤ), 22, 23, -1].filter (fun pk => pk ≠ -1)) :=
  ⟨⟨by decide, by decide⟩,
    C4_seed_pool_selection.1 ⟨20, 4, false⟩ [(21 : ℤ), 22, 23, -1] [201, 202, 203, 204]
      (initCtx [1, 2]) (by decide) (by decide)⟩

/-! ## Proposal generator (`propose.py`, `proposal_modes/random_mode.py`)

An occupation-matrix card (`Dict` node content) maps atom keys
`'1'..'natoms'` to `spin_data -> up/down -> occupation_matrix`; the keys
are modelled positionally. The numpy random sources (`np.random.shuffle`,
`np.random.randint`, `np.random.uniform`, `uniform_direction.rvs`) are
modelled as explicit streams indexed by the iteration and atom of the
generation loop. -/

/-- The `spin_data` payload of one atom of a card. -/
structure SpinData where
  up : List (List ℝ)
  down : List (List ℝ)

/-- One occupation-matrix card, atoms listed in key order `'1'..'natoms'`. -/
abbrev OccCard := List SpinData

/-- Output proposal payload: the `'matrix'` value, a
`natoms x 2 x norb x norb` nested list. -/
abbrev Proposal := List (List (List (List ℝ)))

/-- One entry of a read-mode source file: its `occupation_numbers` value,
indexed `[iatom][ispin][row][col]`. -/
abbrev ReadEntry := List (List (List (List ℝ)))

/-- Explicit random streams consumed by the random mode, indexed by
(iteration, atom). -/
structure RandStream where
  shuffle : ℕ → ℕ → List ℕ → List ℕ
  oxdelta : ℕ → ℕ → ℤ
  angle : ℕ → ℕ → ℝ
  axis : ℕ → ℕ → Fin 3 → ℝ

/-- The proposal mode selected by the `mode` string. -/
inductive ProposalMode where
  | random : ProposalMode
  | read : ProposalMode
deriving DecidableEq, Repr

/-- A Python `for` loop accumulating one value per element, stopping at
the first raised exception. -/
def forEachM {α β : Type} (f : α → Except PyErr β) : List α → Except PyErr (List β)
  | [] => .ok []
  | a :: as => do
    let b ← f a
    let bs ← forEachM f as
    pure (b :: bs)

/-- Trace of a nested-list square matrix (`np.trace`): the sum of the
diagonal entries. -/
noncomputable def listTrace (rows : List (List ℝ)) : ℝ :=
  ((List.range rows.length).map (fun i => (rows.getD i []).getD i 0)).sum

/-- Conversion of a real matrix back to nested lists (`ndarray.tolist`). -/
def matToList {n : ℕ} (M : Matrix (Fin n) (Fin n) ℝ) : List (List ℝ) :=
  List.ofFn (fun r => List.ofFn (fun c => M r c))

/-- Entrywise real part (`ndarray.real`). -/
def reMat {n : ℕ} (M : Matrix (Fin n) (Fin n) ℂ) : Matrix (Fin n) (Fin n) ℝ :=
  Matrix.of (fun i j => (M i j).re)

/-- Embedding of `_calculate_average_traces(occ_matr_list, natoms)`: for
each atom, the mean over all cards of the summed up+down trace. A missing
atom key raises; an empty pool reaches the division by
`len(occ_matr_list)` with a zero divisor and raises there, after the
(empty) accumulation loop. -/
noncomputable def calculate_average_traces (pool : List OccCard) (natoms : ℕ) :
    Except PyErr (List ℝ) :=
  forEachM (fun iatom => do
    let traces ← forEachM (fun card =>
      match card.get? iatom with
      | some sd => pure (listTrace sd.up + listTrace sd.down)
      | none => Except.error PyErr.indexError) pool
    if pool.length = 0 then Except.error PyErr.zeroDivisionError
    else pure (traces.sum / pool.length)) (List.range natoms)

/-- Embedding of `_create_random_diagonal_matrices(dim, target_electrons)`.
`shuffle` is the in-place `np.random.shuffle`; the first `dim` entries of
the shuffled 0/1 pattern become the up diagonal and the remaining entries
the down diagonal. The guard models numpy's shape check when the remaining
entries are assigned into a `dim x dim` diagonal slot (only a negative
electron count makes the pattern longer than `2*dim`); a
larger-than-`2*dim` count is clamped by the `min`, not rejected. -/
def create_random_diagonal_matrices (dim : ℕ) (target : ℤ)
    (shuffle : List ℕ → List ℕ) :
    Except PyErr (Matrix (Fin dim) (Fin dim) ℂ × Matrix (Fin dim) (Fin dim) ℂ) :=
  let actual := min target (2 * (dim : ℤ))
  let base := List.replicate actual.toNat 1 ++
    List.replicate ((2 * (dim : ℤ) - actual).toNat) 0
  let shuffled := shuffle base
  let upl := shuffled.take dim
  let downl := shuffled.drop dim
  if downl.length = dim then
    .ok (Matrix.diagonal (fun i => ((upl.getD (i : ℕ) 0 : ℕ) : ℂ)),
         Matrix.diagonal (fun i => ((downl.getD (i : ℕ) 0 : ℕ) : ℂ)))
  else .error .valueError

/-- Embedding of `_apply_random_rotation(matrices)`: one shared random
angle/direction pair rotates both spin channels. -/
noncomputable def apply_random_rotation (angle : ℝ) (axis : Fin 3 → ℝ)
    (mats : Matrix (Fin 5) (Fin 5) ℂ × Matrix (Fin 5) (Fin 5) ℂ) :
    Except PyErr (Matrix (Fin 5) (Fin 5) ℂ × Matrix (Fin 5) (Fin 5) ℂ) := do
  let upR ← rotate_QE_matrix mats.1 angle axis
  let downR ← rotate_QE_matrix mats.2 angle axis
  pure (upR, downR)

/-- The per-site body of the `propose_random_constraints` generation
loop (steps 2a-2c of the source): the matrix dimension is read from the
first card of the pool (`occ_matr_list[0]`), the integer target is
`int(round(...))` of the atom's average (or explicitly supplied) trace,
optionally perturbed by the `randint(-1, 2)` stream, the 0/1 diagonal
pair is built and rotated, and only the real part is kept. Dimensions
other than 5 are rejected with `ValueError` by the fixed
spherical-to-cubic transform inside the rotation. `int(round(.))` is
modelled by `round`; the modelled domain avoids exact half-integer
averages, where numpy rounds half to even. -/
noncomputable def random_site_matrices (pool : List OccCard) (avg : List ℝ)
    (randomize_oxidation : Bool) (rs : RandStream) (iteration iatom : ℕ) :
    Except PyErr (List (List (List ℝ))) := do
  let card0 ← match pool.get? 0 with
    | some c => pure c
    | none => Except.error PyErr.indexError
  let sd ← match card0.get? iatom with
    | some sd => pure sd
    | none => Except.error PyErr.indexError
  let dim := sd.up.length
  let t ← match avg.get? iatom with
    | some t => pure t
    | none => Except.error PyErr.indexError
  let target_oxidation : ℤ :=
    round t + (if randomize_oxidation then rs.oxdelta iteration iatom else 0)
  if dim = 5 then do
    let mats ← create_random_diagonal_matrices 5 target_oxidation
      (rs.shuffle iteration iatom)
    let rotated ← apply_random_rotation (rs.angle iteration iatom)
      (rs.axis iteration iatom) mats
    pure [matToList (reMat rotated.1), matToList (reMat rotated.2)]
  else Except.error PyErr.valueError

/-- Embedding of `propose_random_constraints`: determine the per-atom
targets (explicit `target_traces` or averages of the seed pool), then for
each of the `N` proposals collect the per-site matrices. -/
noncomputable def propose_random_constraints (pool : List OccCard) (natoms N : ℕ)
    (randomize_oxidation : Bool) (target_traces : Option (List ℝ)) (rs : RandStream) :
    Except PyErr (List Proposal) := do
  let average_traces ← match target_traces with
    | none => calculate_average_traces pool natoms
    | some ts => pure ts
  forEachM (fun iteration => do
    let occ_mat_list_per_atom ← forEachM
      (random_site_matrices pool average_traces randomize_oxidation rs iteration)
      (List.range natoms)
    pure occ_mat_list_per_atom) (List.range N)

/-- Embedding of `propose_new_constraints(occ_matr_list, N, mode, ...)`.
The atom keys and their count are read from the SECOND entry of the pool
(`occ_matr_list[1]`), and the orbital count from the first atom of that
same second entry; with fewer than two cards the subscript raises
`IndexError` before anything else. `N < 1` is rejected afterwards, then
the mode dispatch runs. In read mode a missing `readfile` and a source
shorter than `N` raise `ValueError`; otherwise entries `0..N-1` are
copied in source order (shape-correct sources are the modelled domain —
numpy's broadcast rejection of mis-shaped entries is not modelled). -/
noncomputable def propose_new_constraints (pool : List OccCard) (N : ℕ)
    (mode : ProposalMode) (randomize_oxidation : Bool)
    (target_traces : Option (List ℝ)) (readfile : Option (List ReadEntry))
    (rs : RandStream) : Except PyErr (List Proposal) := do
  let card1 ← match pool.get? 1 with
    | some c => pure c
    | none => Except.error PyErr.indexError
  let natoms := card1.length
  let sd0 ← match card1.get? 0 with
    | some sd => pure sd
    | none => Except.error PyErr.indexError
  let norbitals := sd0.up.length
  if N < 1 then Except.error PyErr.valueError
  else match mode with
    | .random =>
      propose_random_constraints pool natoms N randomize_oxidation target_traces rs
    | .read => do
      let src ← match readfile with
        | some s => pure s
        | none => Except.error PyErr.valueError
      if src.length < N then Except.error PyErr.valueError
      else
        pure ((List.range N).map (fun iteration =>
          (List.range natoms).map (fun iatom =>
            (List.range 2).map (fun ispin =>
              List.ofFn (n := norbitals) (fun r =>
                List.ofFn (n := norbitals) (fun c =>
                  ((((src.getD iteration []).getD iatom []).getD ispin []).getD
                    (r : ℕ) []).getD (c : ℕ) 0))))))

/-- A degenerate random stream (identity shuffle, zero perturbation,
angle 0, zero axis), used for concrete evaluations. -/
def trivialStream : RandStream :=
  { shuffle := fun _ _ l => l
    oxdelta := fun _ _ => 0
    angle := fun _ _ => 0
    axis := fun _ _ _ => 0 }

/-! ## Claim C5: the generator crashes on a one-entry seed pool -/

/-- C5 (failing-input evidence). On a seed pool with exactly one card the
generator does not return `N` proposals covering the pool's sites: it
fails immediately with an `IndexError`, because `propose_new_constraints`
reads the atom names and orbital dimension from `occ_matr_list[1]`, the
second entry, which does not exist — for every `N`, mode and option set. -/
theorem C5_singleton_pool_index_error (c : OccCard) (N : ℕ) (mode : ProposalMode)
    (rox : Bool) (tts : Option (List ℝ)) (rf : Option (List ReadEntry))
    (rs : RandStream) :
    propose_new_constraints [c] N mode rox tts rf rs = .error .indexError := rfl

/-! ## Claim C6: empty seed pool without explicit targets -/

/-- C6 (counterexample). With an empty seed pool and no `target_traces`,
the call does fail before producing anything — but with an index error
(the `occ_matr_list[1]` subscript), not a validation error (`ValueError`),
the class every explicit `raise` in the generator uses. -/
theorem C6_counterexample :
    propose_new_constraints [] 1 .random false none none trivialStream =
      .error .indexError ∧
    PyErr.indexError ≠ PyErr.valueError :=
  ⟨rfl, by decide⟩

/-- C6 (amended). With an empty seed pool and no explicit `target_traces`
the generator fails with an error before computing any target: the full
entry point raises an index error inspecting the pool, and the averaging
step itself, called directly with at least one atom, raises a
zero-division error on the empty divisor. No NaN or zero target is ever
produced. -/
theorem C6_empty_pool_fails (N : ℕ) (mode : ProposalMode) (rox : Bool)
    (rf : Option (List ReadEntry)) (rs : RandStream) :
    propose_new_constraints [] N mode rox none rf rs = .error .indexError ∧
    (∀ natoms : ℕ, 1 ≤ natoms →
      calculate_average_traces [] natoms = .error .zeroDivisionError) := by
  refine ⟨rfl, ?_⟩
  intro natoms h
  obtain ⟨m, rfl⟩ : ∃ m, natoms = 1 + m := ⟨natoms - 1, by omega⟩
  have hr : List.range (1 + m) = 0 :: (List.range m).map Nat.succ := by
    rw [Nat.add_comm, List.range_succ_eq_map]
  unfold calculate_average_traces
  rw [hr]
  rfl

/-- Witness for C6's amended statement at one atom. -/
theorem C6_witness :
    propose_new_constraints [] 2 .random false none none trivialStream =
      .error .indexError ∧
    (1 ≤ 1 ∧ calculate_average_traces [] 1 = .error .zeroDivisionError) :=
  ⟨(C6_empty_pool_fails 2 .random false none trivialStream).1,
   le_refl 1, (C6_empty_pool_fails 2 .random false none trivialStream).2 1 (le_refl 1)⟩

/-! ## Claim C10: the diagonal builder clamps oversized targets -/

theorem sum_getD_of_length {l : List ℕ} {n : ℕ} (h : l.length = n) :
    ∑ i : Fin n, l.getD (i : ℕ) 0 = l.sum := by
  subst h
  conv_rhs => rw [← List.ofFn_get l, List.sum_ofFn]
  refine Finset.sum_congr rfl fun i _ => ?_
  rw [List.getD_eq_getElem l 0 i.isLt]
  rfl

/-- Shared specification of `_create_random_diagonal_matrices` for a
non-negative electron target: the call succeeds for any permutation the
shuffle stream produces, both returned matrices are diagonal with 0/1
entries, and the combined trace is the clamped target
`min target (2*dim)`. -/
theorem create_diag_spec (dim : ℕ) (target : ℤ) (h0 : 0 ≤ target)
    (sh : List ℕ → List ℕ) (hsh : ∀ l, (sh l).Perm l) :
    ∃ M, create_random_diagonal_matrices dim target sh = .ok M ∧
      (∃ u : Fin dim → ℕ, (∀ i, u i ≤ 1) ∧
        M.1 = Matrix.diagonal (fun i => (u i : ℂ))) ∧
      (∃ d : Fin dim → ℕ, (∀ i, d i ≤ 1) ∧
        M.2 = Matrix.diagonal (fun i => (d i : ℂ))) ∧
      M.1.trace + M.2.trace = (((min target (2 * dim)).toNat : ℕ) : ℂ) := by
  have hbase_len : (List.replicate (min target (2 * (dim : ℤ))).toNat 1 ++
      List.replicate ((2 * (dim : ℤ) - min target (2 * (dim : ℤ))).toNat) 0 :
        List ℕ).length = 2 * dim := by
    rw [List.length_append, List.length_replicate, List.length_replicate]
    omega
  set B : List ℕ := List.replicate (min target (2 * (dim : ℤ))).toNat 1 ++
      List.replicate ((2 * (dim : ℤ) - min target (2 * (dim : ℤ))).toNat) 0 with hB
  have hshuf_len : (sh B).length = 2 * dim := by
    rw [(hsh B).length_eq]
    exact hbase_len
  have hguard : ((sh B).drop dim).length = dim := by
    rw [List.length_drop, hshuf_len]
    omega
  have hup_len : ((sh B).take dim).length = dim := by
    rw [List.length_take, hshuf_len]
    omega
  have hmem_base : ∀ x ∈ B, x ≤ 1 := by
    intro x hx
    rcases List.mem_append.mp hx with hx | hx
    · rw [List.eq_of_mem_replicate hx]
    · rw [List.eq_of_mem_replicate hx]
      omega
  have hmem_shuf : ∀ x ∈ sh B, x ≤ 1 := fun x hx =>
    hmem_base x ((hsh B).mem_iff.mp hx)
  have hbound : ∀ (l : List ℕ), l ⊆ sh B → ∀ i : ℕ, l.getD i 0 ≤ 1 := by
    intro l hsub i
    by_cases hi : i < l.length
    · rw [List.getD_eq_getElem l 0 hi]
      exact hmem_shuf _ (hsub (List.getElem_mem hi))
    · rw [List.getD_eq_default]
      · omega
      · omega
  have hBsum : B.sum = (min target (2 * dim)).toNat := by
    rw [hB, List.sum_append, List.sum_replicate, List.sum_replicate, smul_eq_mul,
      smul_eq_mul, mul_one, mul_zero, add_zero]
  refine ⟨(Matrix.diagonal (fun i : Fin dim => ((((sh B).take dim).getD (i : ℕ) 0 : ℕ) : ℂ)),
    Matrix.diagonal (fun i : Fin dim => ((((sh B).drop dim).getD (i : ℕ) 0 : ℕ) : ℂ))),
    ?_, ?_, ?_, ?_⟩
  · unfold create_random_diagonal_matrices
    simp only [← hB]
    rw [if_pos hguard]
  · exact ⟨_, fun i => hbound _ (List.take_subset dim (sh B)) (i : ℕ), rfl⟩
  · exact ⟨_, fun i => hbound _ (List.drop_subset dim (sh B)) (i : ℕ), rfl⟩
  · rw [Matrix.trace_diagonal, Matrix.trace_diagonal]
    rw [← Nat.cast_sum, ← Nat.cast_sum, sum_getD_of_length hup_len,
      sum_getD_of_length hguard, ← Nat.cast_add, List.sum_take_add_sum_drop,
      (hsh B).sum_eq, hBsum]

/-- C10. For every orbital dimension and every non-negative electron
target, `_create_random_diagonal_matrices` succeeds (for any permutation
the shuffle stream may produce) and returns two `dim x dim` diagonal 0/1
matrices whose combined trace is `min target (2*dim)`: a target exceeding
the `2*dim` available states is silently clamped, not rejected. -/
theorem C10_create_diagonal_clamps (dim target : ℕ) (sh : List ℕ → List ℕ)
    (hsh : ∀ l, (sh l).Perm l) :
    ∃ M, create_random_diagonal_matrices dim (target : ℤ) sh = .ok M ∧
      (∃ u : Fin dim → ℕ, (∀ i, u i ≤ 1) ∧
        M.1 = Matrix.diagonal (fun i => (u i : ℂ))) ∧
      (∃ d : Fin dim → ℕ, (∀ i, d i ≤ 1) ∧
        M.2 = Matrix.diagonal (fun i => (d i : ℂ))) ∧
      M.1.trace + M.2.trace = ((min target (2 * dim) : ℕ) : ℂ) := by
  have h := create_diag_spec dim (target : ℤ) (Int.natCast_nonneg target) sh hsh
  have hmin : (min (target : ℤ) (2 * (dim : ℤ))).toNat = min target (2 * dim) := by
    omega
  rw [hmin] at h
  exact h

/-- Witness for C10 at `dim = 5` with an oversized target of 11 electrons
(clamped to the 10 available states) and the identity shuffle. -/
theorem C10_witness :
    (∀ l : List ℕ, (id l).Perm l) ∧
    ∃ M, create_random_diagonal_matrices 5 ((11 : ℕ) : ℤ) id = .ok M ∧
      (∃ u : Fin 5 → ℕ, (∀ i, u i ≤ 1) ∧
        M.1 = Matrix.diagonal (fun i => (u i : ℂ))) ∧
      (∃ d : Fin 5 → ℕ, (∀ i, d i ≤ 1) ∧
        M.2 = Matrix.diagonal (fun i => (d i : ℂ))) ∧
      M.1.trace + M.2.trace = ((min 11 (2 * 5) : ℕ) : ℂ) :=
  ⟨fun l => List.Perm.refl l,
   C10_create_diagonal_clamps 5 11 id (fun l => List.Perm.refl l)⟩

/-! ## Claim C7: read mode -/

theorem readProposal_eq_entry {natoms norb : ℕ} {e : ReadEntry}
    (hlen : e.length = natoms)
    (hsh : ∀ am ∈ e, am.length = 2 ∧
      ∀ sm ∈ am, sm.length = norb ∧ ∀ row ∈ sm, row.length = norb) :
    (List.range natoms).map (fun iatom =>
      (List.range 2).map (fun ispin =>
        List.ofFn (fun r : Fin norb =>
          List.ofFn (fun c : Fin norb =>
            (((e.getD iatom []).getD ispin []).getD (r : ℕ) []).getD (c : ℕ) 0)))) = e := by
  apply List.ext_getElem
  · simp [hlen]
  intro i hi1 hi2
  simp only [List.getElem_map, List.getElem_range]
  have ham := hsh e[i] (List.getElem_mem hi2)
  have hei : e.getD i [] = e[i] := List.getD_eq_getElem e [] hi2
  apply List.ext_getElem
  · simp [ham.1]
  intro s hs1 hs2
  simp only [List.getElem_map, List.getElem_range]
  have hsm := ham.2 (e[i])[s] (List.getElem_mem hs2)
  have hes : (e.getD i []).getD s [] = (e[i])[s] := by
    rw [hei]
    exact List.getD_eq_getElem _ [] hs2
  apply List.ext_getElem
  · simp [hsm.1, List.length_ofFn]
  intro r hr1 hr2
  simp only [List.getElem_ofFn]
  have hrow := hsm.2 ((e[i])[s])[r] (List.getElem_mem hr2)
  have her : ((e.getD i []).getD s []).getD r [] = ((e[i])[s])[r] := by
    rw [hes]
    exact List.getD_eq_getElem _ [] hr2
  apply List.ext_getElem
  · simp [hrow, List.length_ofFn]
  intro c hc1 hc2
  simp only [List.getElem_ofFn]
  rw [her, List.getD_eq_getElem _ 0 hc2]

/-- C7. In read mode, on a well-formed pool (at least two cards, the
second non-empty): a source with fewer than `N` entries fails with the
data-insufficiency `ValueError` and produces no proposals, while a source
with at least `N` entries yields exactly `N` proposals, the `i`-th being a
verbatim copy of source entry `i` (entries `0..N-1` in source order)
whenever that entry has the shape the pool announces. -/
theorem C7_read_mode_contract (c0 : OccCard) (sd0 : SpinData) (sds : List SpinData)
    (rest : List OccCard) (N : ℕ) (hN : 1 ≤ N) (src : List ReadEntry)
    (rox : Bool) (tts : Option (List ℝ)) (rs : RandStream) :
    (src.length < N →
      propose_new_constraints (c0 :: (sd0 :: sds) :: rest) N .read rox tts
        (some src) rs = .error .valueError) ∧
    (N ≤ src.length →
      ∃ props, propose_new_constraints (c0 :: (sd0 :: sds) :: rest) N .read rox tts
          (some src) rs = .ok props ∧
        props.length = N ∧
        ∀ i < N,
          ((src.getD i []).length = (sd0 :: sds).length ∧
            ∀ am ∈ src.getD i [], am.length = 2 ∧
              ∀ sm ∈ am, sm.length = sd0.up.length ∧
                ∀ row ∈ sm, row.length = sd0.up.length) →
          props.getD i [] = src.getD i []) := by
  constructor
  · intro h
    unfold propose_new_constraints
    simp only [List.get?_cons_succ, List.get?_cons_zero, pure_bind]
    rw [if_neg (by omega)]
    rw [if_pos h]
  · intro h
    refine ⟨(List.range N).map (fun iteration =>
      (List.range (sd0 :: sds).length).map (fun iatom =>
        (List.range 2).map (fun ispin =>
          List.ofFn (fun r : Fin sd0.up.length =>
            List.ofFn (fun c : Fin sd0.up.length =>
              ((((src.getD iteration []).getD iatom []).getD ispin []).getD
                (r : ℕ) []).getD (c : ℕ) 0))))), ?_, ?_, ?_⟩
    · unfold propose_new_constraints
      simp only [List.get?_cons_succ, List.get?_cons_zero, pure_bind]
      rw [if_neg (by omega)]
      rw [if_neg (by omega)]
      rfl
    · rw [List.length_map, List.length_range]
    · intro i hi hshape
      rw [List.getD_eq_getElem _ [] (by rw [List.length_map, List.length_range]; exact hi)]
      simp only [List.getElem_map, List.getElem_range]
      exact readProposal_eq_entry hshape.1 hshape.2

/-- A minimal read-mode source entry: one atom, two spins, one orbital. -/
def sampleEntry : ReadEntry := [[[[2]], [[3]]]]

/-- A minimal one-atom card with a 1x1 occupation matrix per spin. -/
def sampleSpinData : SpinData := { up := [[0]], down := [[0]] }

/-- Witness for C7: with a one-entry source, requesting two proposals
fails with `ValueError`, and requesting one succeeds with the entry copied
in order. -/
theorem C7_witness :
    ((1 ≤ (2 : ℕ) ∧ ([sampleEntry] : List ReadEntry).length < 2) ∧
      propose_new_constraints ([] :: [sampleSpinData] :: []) 2 .read false none
        (some [sampleEntry]) trivialStream = .error .valueError) ∧
    ((1 ≤ (1 : ℕ) ∧ 1 ≤ ([sampleEntry] : List ReadEntry).length) ∧
      ∃ props, propose_new_constraints ([] :: [sampleSpinData] :: []) 1 .read false none
          (some [sampleEntry]) trivialStream = .ok props ∧
        props.length = 1 ∧
        ∀ i < 1,
          (([sampleEntry].getD i []).length = ([sampleSpinData] : List SpinData).length ∧
            ∀ am ∈ [sampleEntry].getD i [], am.length = 2 ∧
              ∀ sm ∈ am, sm.length = sampleSpinData.up.length ∧
                ∀ row ∈ sm, row.length = sampleSpinData.up.length) →
          props.getD i [] = [sampleEntry].getD i []) := by
  constructor
  · refine ⟨⟨by decide, by decide⟩, ?_⟩
    exact (C7_read_mode_contract [] sampleSpinData [] [] 2 (by decide) [sampleEntry]
      false none trivialStream).1 (by decide)
  · refine ⟨⟨by decide, by decide⟩, ?_⟩
    exact (C7_read_mode_contract [] sampleSpinData [] [] 1 (by decide) [sampleEntry]
      false none trivialStream).2 (by decide)

/-! ## Claim C8: random-mode trace targeting -/

/-- A loop body that succeeds on every element, with postcondition `P`,
yields a list of results satisfying `P` elementwise. -/
theorem forEachM_ok_of_forall {α β : Type} {f : α → Except PyErr β} {P : α → β → Prop} :
    ∀ {l : List α}, (∀ a ∈ l, ∃ b, f a = .ok b ∧ P a b) →
      ∃ bs, forEachM f l = .ok bs ∧ bs.length = l.length ∧
        ∀ (i : ℕ) (h1 : i < l.length) (h2 : i < bs.length), P l[i] bs[i] := by
  intro l
  induction l with
  | nil =>
    intro _
    exact ⟨[], rfl, rfl, fun i h1 _ => by simp at h1⟩
  | cons a l ih =>
    intro h
    obtain ⟨b, hb, hPb⟩ := h a (List.mem_cons_self a l)
    obtain ⟨bs, hbs, hlen, hP⟩ := ih (fun x hx => h x (List.mem_cons_of_mem a hx))
    refine ⟨b :: bs, ?_, by simp [hlen], ?_⟩
    · rw [forEachM]
      rw [hb]
      rw [show (Except.ok b >>= fun b => forEachM f l >>= fun bs =>
          pure (b :: bs) : Except PyErr (List β)) =
        (forEachM f l >>= fun bs => pure (b :: bs)) from rfl]
      rw [hbs]
      rfl
    · intro i h1 h2
      match i with
      | 0 => exact hPb
      | i + 1 =>
        exact hP i (by simpa using h1) (by simpa using h2)

theorem sum_map_range (n : ℕ) (f : ℕ → ℝ) :
    ((List.range n).map f).sum = ∑ i : Fin n, f (i : ℕ) := by
  induction n with
  | zero => simp
  | succ n ih =>
    rw [List.range_succ, List.map_append, List.sum_append, Fin.sum_univ_castSucc]
    simp [ih]

theorem listTrace_matToList {n : ℕ} (M : Matrix (Fin n) (Fin n) ℝ) :
    listTrace (matToList M) = ∑ i : Fin n, M i i := by
  unfold listTrace matToList
  rw [List.length_ofFn, sum_map_range]
  refine Finset.sum_congr rfl fun i _ => ?_
  rw [List.getD_eq_getElem _ [] (by rw [List.length_ofFn]; exact i.isLt)]
  rw [List.getElem_ofFn]
  rw [List.getD_eq_getElem _ 0 (by rw [List.length_ofFn]; exact i.isLt)]
  rw [List.getElem_ofFn]

/-- The traced real part: converting the real part of a complex matrix to
nested lists and tracing it gives the real part of the complex trace. -/
theorem listTrace_reMat {n : ℕ} (M : Matrix (Fin n) (Fin n) ℂ) :
    listTrace (matToList (reMat M)) = (M.trace).re := by
  rw [listTrace_matToList, Matrix.trace, Complex.re_sum]
  rfl

/-- Rotating both spin channels with a non-degenerate axis succeeds and
preserves the combined trace. -/
theorem apply_random_rotation_ok (angle : ℝ) (axis : Fin 3 → ℝ)
    (h : axisNorm axis ≠ 0) (mats : Matrix (Fin 5) (Fin 5) ℂ × Matrix (Fin 5) (Fin 5) ℂ) :
    ∃ R, apply_random_rotation angle axis mats = .ok R ∧
      R.1.trace + R.2.trace = mats.1.trace + mats.2.trace := by
  obtain ⟨upR, hup, hupt, _⟩ := rotate_QE_matrix_ok mats.1 angle axis h
  obtain ⟨downR, hdown, hdownt, _⟩ := rotate_QE_matrix_ok mats.2 angle axis h
  refine ⟨(upR, downR), ?_, by rw [hupt, hdownt]⟩
  rw [apply_random_rotation]
  rw [hup]
  rw [show (Except.ok upR >>= fun upR => rotate_QE_matrix mats.2 angle axis >>=
      fun downR => pure (upR, downR) : Except PyErr _) =
    (rotate_QE_matrix mats.2 angle axis >>= fun downR => pure (upR, downR)) from rfl]
  rw [hdown]
  rfl

theorem ok_bind {α β : Type} (a : α) (f : α → Except PyErr β) :
    (Except.ok a >>= f : Except PyErr β) = f a := rfl

/-- C8. In random mode with explicit `target_traces` and oxidation
randomisation disabled, on a pool whose first card announces the
5-orbital dimension for every atom and integral in-range targets
(`round t = t`, `0 ≤ round t ≤ 10`), the generator returns exactly `N`
proposals; every proposal covers all `natoms` sites and every per-atom
up/down pair of output matrices satisfies
`round(trace_up + trace_down) = target trace of that atom` — for any
shuffle permutations and non-degenerate rotation axes the random streams
produce. -/
theorem C8_random_mode_traces (pool : List OccCard) (card0 : OccCard)
    (hpool : pool.get? 0 = some card0) (natoms N : ℕ) (ts : List ℝ)
    (hlen : natoms ≤ ts.length)
    (hdim : ∀ iatom, iatom < natoms → ∃ sd, card0.get? iatom = some sd ∧ sd.up.length = 5)
    (hts : ∀ t ∈ ts, (round t : ℝ) = t ∧ 0 ≤ round t ∧ round t ≤ 10)
    (rs : RandStream) (hsh : ∀ it ia l, (rs.shuffle it ia l).Perm l)
    (hax : ∀ it ia, axisNorm (rs.axis it ia) ≠ 0) :
    ∃ props, propose_random_constraints pool natoms N false (some ts) rs = .ok props ∧
      props.length = N ∧
      ∀ p ∈ props, p.length = natoms ∧
        ∀ iatom, iatom < natoms → ∃ ul dl, p.getD iatom [] = [ul, dl] ∧
          (round (listTrace ul + listTrace dl) : ℝ) = ts.getD iatom 0 := by
  have hinner : ∀ it : ℕ, ∀ a ∈ List.range natoms,
      ∃ out, random_site_matrices pool ts false rs it a = .ok out ∧
        ∃ ul dl, out = [ul, dl] ∧
          (round (listTrace ul + listTrace dl) : ℝ) = ts.getD a 0 := by
    intro it a ha
    have halt : a < natoms := List.mem_range.mp ha
    obtain ⟨sd, hsd, hd5⟩ := hdim a halt
    have hat : a < ts.length := lt_of_lt_of_le halt hlen
    have hta : ts.get? a = some ts[a] := List.get?_eq_get hat
    have htmem := hts ts[a] (List.getElem_mem hat)
    obtain ⟨M, hM, _, _, hMtr⟩ := create_diag_spec 5 (round ts[a]) htmem.2.1
      (rs.shuffle it a) (hsh it a)
    obtain ⟨R, hR, hRtr⟩ := apply_random_rotation_ok (rs.angle it a) (rs.axis it a)
      (hax it a) M
    refine ⟨[matToList (reMat R.1), matToList (reMat R.2)], ?_, _, _, rfl, ?_⟩
    · unfold random_site_matrices
      simp only [hpool, hsd, hta, ok_bind, pure_bind, Bool.false_eq_true, if_false,
        add_zero, hd5, if_pos rfl, hM, hR]
      rfl
    · rw [listTrace_reMat, listTrace_reMat, ← Complex.add_re, hRtr, hMtr]
      have hmin : min (round ts[a]) (2 * ((5 : ℕ) : ℤ)) = round ts[a] := by
        rw [min_eq_left]
        exact_mod_cast htmem.2.2
      rw [hmin]
      have hcast : (((round ts[a]).toNat : ℕ) : ℂ).re = ((round ts[a] : ℤ) : ℝ) := by
        rw [Complex.natCast_re]
        exact_mod_cast congrArg (fun z : ℤ => (z : ℝ)) (Int.toNat_of_nonneg htmem.2.1)
      rw [hcast]
      have hround : round (((round ts[a] : ℤ) : ℝ)) = round ts[a] := round_intCast _
      rw [hround, htmem.1]
      exact (List.getD_eq_getElem ts 0 hat).symm
  have houter : ∀ it ∈ List.range N,
      ∃ prop, (fun iteration => do
          let occ_mat_list_per_atom ← forEachM
            (random_site_matrices pool ts false rs iteration) (List.range natoms)
          pure occ_mat_list_per_atom : ℕ → Except PyErr Proposal) it = .ok prop ∧
        (prop.length = natoms ∧
          ∀ iatom, iatom < natoms → ∃ ul dl, prop.getD iatom [] = [ul, dl] ∧
            (round (listTrace ul + listTrace dl) : ℝ) = ts.getD iatom 0) := by
    intro it _
    obtain ⟨outs, houts, hlens, hP⟩ := @forEachM_ok_of_forall ℕ (List (List (List ℝ)))
      (random_site_matrices pool ts false rs it)
      (fun a out => ∃ ul dl, out = [ul, dl] ∧
        (round (listTrace ul + listTrace dl) : ℝ) = ts.getD a 0)
      (List.range natoms) (hinner it)
    refine ⟨outs, ?_, ?_, ?_⟩
    · simp only [houts, ok_bind]
      rfl
    · rw [hlens, List.length_range]
    · intro iatom hia
      have h1 : iatom < (List.range natoms).length := by
        rw [List.length_range]
        exact hia
      have h2 : iatom < outs.length := by
        rw [hlens, List.length_range]
        exact hia
      have hPi := hP iatom h1 h2
      rw [List.getElem_range] at hPi
      rw [List.getD_eq_getElem outs [] h2]
      exact hPi
  obtain ⟨props, hprops, hplen, hPP⟩ := @forEachM_ok_of_forall ℕ Proposal
    (fun iteration => do
      let occ_mat_list_per_atom ← forEachM
        (random_site_matrices pool ts false rs iteration) (List.range natoms)
      pure occ_mat_list_per_atom)
    (fun _ prop => prop.length = natoms ∧
      ∀ iatom, iatom < natoms → ∃ ul dl, prop.getD iatom [] = [ul, dl] ∧
        (round (listTrace ul + listTrace dl) : ℝ) = ts.getD iatom 0)
    (List.range N) houter
  refine ⟨props, ?_, ?_, ?_⟩
  · unfold propose_random_constraints
    simp only [pure_bind]
    exact hprops
  · rw [hplen, List.length_range]
  · intro p hp
    obtain ⟨i, hi, rfl⟩ := List.mem_iff_getElem.mp hp
    exact hPP i (by rw [← hplen]; exact hi) hi

/-- A stream with identity shuffles and a fixed diagonal rotation axis. -/
def unitAxisStream : RandStream :=
  { shuffle := fun _ _ l => l
    oxdelta := fun _ _ => 0
    angle := fun _ _ => 0
    axis := fun _ _ => fun _ => 1 }

/-- A two-atom card with 5x5 zero occupation matrices per spin. -/
def sampleSpin5 : SpinData :=
  { up := List.replicate 5 (List.replicate 5 0)
    down := List.replicate 5 (List.replicate 5 0) }

def sampleCard5 : OccCard := [sampleSpin5, sampleSpin5]

/-- Witness for C8 at the claim's scenario: `N = 10`, two atoms, explicit
targets `[5, 5]`, oxidation randomisation off. -/
theorem C8_witness :
    (∀ t ∈ [(5 : ℝ), 5], (round t : ℝ) = t ∧ 0 ≤ round t ∧ round t ≤ 10) ∧
    (∀ it ia, axisNorm (unitAxisStream.axis it ia) ≠ 0) ∧
    ∃ props, propose_random_constraints [sampleCard5, sampleCard5] 2 10 false
        (some [5, 5]) unitAxisStream = .ok props ∧
      props.length = 10 ∧
      ∀ p ∈ props, p.length = 2 ∧
        ∀ iatom, iatom < 2 → ∃ ul dl, p.getD iatom [] = [ul, dl] ∧
          (round (listTrace ul + listTrace dl) : ℝ) = [(5 : ℝ), 5].getD iatom 0 := by
  have h5 : round ((5 : ℝ)) = 5 := by
    rw [show (5 : ℝ) = ((5 : ℤ) : ℝ) by norm_num, round_intCast]
  have hts : ∀ t ∈ [(5 : ℝ), 5], (round t : ℝ) = t ∧ 0 ≤ round t ∧ round t ≤ 10 := by
    intro t ht
    have : t = 5 := by
      rcases List.mem_cons.mp ht with h | h
      · exact h
      · rcases List.mem_cons.mp h with h | h
        · exact h
        · exact absurd h (List.not_mem_nil t)
    subst this
    rw [h5]
    norm_num
  have hax : ∀ it ia, axisNorm (unitAxisStream.axis it ia) ≠ 0 := by
    intro it ia
    unfold unitAxisStream axisNorm
    simp only
    intro h
    have h3 : ((1 : ℝ) ^ 2 + 1 ^ 2 + 1 ^ 2) = 3 := by norm_num
    rw [h3] at h
    have := Real.sqrt_pos.mpr (show (0 : ℝ) < 3 by norm_num)
    exact (ne_of_gt this) h
  refine ⟨hts, hax, ?_⟩
  exact C8_random_mode_traces [sampleCard5, sampleCard5] sampleCard5 rfl 2 10 [5, 5]
    (by decide)
    (fun iatom hia => by
      match iatom with
      | 0 => exact ⟨sampleSpin5, rfl, by decide⟩
      | 1 => exact ⟨sampleSpin5, rfl, by decide⟩
      | n + 2 => exact absurd hia (by omega))
    hts unitAxisStream (fun _ _ l => List.Perm.refl l) hax

end LordCapulet
